import Mathlib

/-!
Verification of the watermarking processor (`src/watermark_processor.py`) of the
llm-identify repository: a shallow embedding of the seed derivation, vocabulary
partitioning, preference selection, logit bias injection and sequential detector,
together with theorems settling the frozen claims about them.

Conventions of the embedding:
* `torch.Generator` is modelled by `TorchGen`, a single integer state;
  `manual_seed` overwrites the state.
* `torch.randperm(n, generator=rng)` is modelled by `randpermModel`
  (modelled from the spec: the spec pins "a specified deterministic permutation
  algorithm keyed by seed" as the compatibility contract for `torch.randperm`,
  whose exact algorithm lives outside this repository; we use a concrete
  deterministic Fisher-Yates shuffle driven by a linear congruential generator,
  and prove it always yields a permutation of `[0, n)`).
* Python ints are `Nat`, `gamma`/`delta` are `ℚ` (the spec states the partition
  size as `floor(gamma * V)`), score tensors are functions `ℕ → ℕ → ℝ`.
* Fallible Python code (asserts, `IndexError`, `ZeroDivisionError`,
  `NotImplementedError`, missing `args.depth`) returns `Option`; `none` is a
  raised exception.
-/

/-- One step of a linear congruential generator; the deterministic state
evolution of the modelled pseudorandom source. -/
def lcgNext (s : Nat) : Nat := (s * 1103515245 + 12345) % 2147483648

/-- Fisher-Yates style draw: repeatedly pick the `s % length`-th remaining
element.  `fuel` is the number of elements to emit. -/
def fyDraw : Nat → Nat → List Nat → List Nat
  | _, 0, _ => []
  | s, fuel + 1, xs => xs.getD (s % xs.length) 0 :: fyDraw (lcgNext s) fuel (xs.eraseIdx (s % xs.length))

/-- Modelled from the spec: the pinned deterministic keyed permutation algorithm
standing for `torch.randperm(n)` seeded via `manual_seed(seed)`; a pure function
of `(seed, n)` returning a permutation of `[0, n)`. -/
def randpermModel (seed n : Nat) : List Nat := fyDraw seed n (List.range n)

/-- Model of `torch.Generator`: a mutable integer state. -/
structure TorchGen where
  state : Nat
deriving DecidableEq

/-- `rng.manual_seed(s)`: the previous state is discarded entirely. -/
def manualSeed (_g : TorchGen) (s : Nat) : TorchGen := TorchGen.mk s

/-- `torch.randperm(n, generator=g)`: returns the permutation determined by the
current state and advances the state. -/
def randpermDraw (g : TorchGen) (n : Nat) : List Nat × TorchGen :=
  (randpermModel g.state n, TorchGen.mk (lcgNext g.state))

/-- The configuration state of `WatermarkBase.__init__` (plus the `args`
fields `gen_mode` and `depth` the methods read; modelled from the spec:
`depth` is a positive integer required iff `gen_mode=depth_d`, hence absent
otherwise, which we represent with `Option`). -/
structure WatermarkBase where
  vocab_size : Nat
  gamma : ℚ
  decrease_delta : Bool
  delta : ℚ
  wm_mode : String
  seeding_scheme : String
  hash_key : Nat
  userid : List Bool
  idx_t : Nat
  gen_mode : String
  depth : Option Nat
deriving DecidableEq

/-- `int(self.userid, 2)`: the numeric value of the binary user key string. -/
def intOfBits (bs : List Bool) : Nat :=
  bs.foldl (fun a b => 2 * a + (if b then 1 else 0)) 0

/-- `int(V * gamma)` on the rational `gamma`: for the nonnegative `gamma` of
every claim, Python `int` truncation is `floor(gamma * V)`; it is phrased over
the numerator and denominator so that it evaluates by kernel reduction, and is
proved equal to `Int.floor ((V : ℚ) * gamma)` below
(`intMulFloor_eq_floor`). -/
def intMulFloor (V : Nat) (gamma : ℚ) : Nat :=
  (((V : Int) * gamma.num) / (gamma.den : Int)).toNat

/-- `int(self.vocab_size * self.gamma)`: the greenlist size. -/
def greenlistSizeOf (wb : WatermarkBase) : Nat :=
  intMulFloor wb.vocab_size wb.gamma

/-- `WatermarkBase._seed_rng`: requires `seeding_scheme == "simple_1"`
(`NotImplementedError` otherwise) and a nonempty prefix (assert), then reseeds
the generator with `hash_key * prev_token`. -/
def seedRng (wb : WatermarkBase) (g : TorchGen) (inputIds : List Nat) : Option TorchGen :=
  if wb.seeding_scheme = "simple_1" then
    match inputIds.getLast? with
    | some prevToken => some (manualSeed g (wb.hash_key * prevToken))
    | none => none
  else none

/-- Tensor indexing `xs[is]` by an index tensor: fails (`IndexError`) when any
index is out of range. -/
def indexSelect (xs : List Nat) (is : List Nat) : Option (List Nat) :=
  if is.all (fun i => i < xs.length) then some (is.map (fun i => xs.getD i 0)) else none

/-- The depth chunking loop of `_get_greenlist_ids` (lines 119-125): slice
`xs` into `d` chunks of length `L = greenlist_size // depth`, the last chunk
absorbing the tail. -/
def dChunks (xs : List Nat) (L : Nat) (d : Nat) : List (List Nat) :=
  (List.range d).map (fun i => if i = d - 1 then xs.drop (i * L) else (xs.drop (i * L)).take L)

/-- `WatermarkBase._get_greenlist_ids`: seed from the prefix, draw the vocab
permutation, split into green/red, reseed from the userid
(`_seed_depth_rng`), draw the depth permutation, permute the green ids (and
the red ids, dropping the trailing red id first when the lengths differ),
and, in `depth_d` mode, slice both into `depth` chunks.  Returns the
quadruple together with the generator. -/
def getGreenlistIds (wb : WatermarkBase) (g : TorchGen) (inputIds : List Nat) :
    Option ((List Nat × List Nat × List (List Nat) × List (List Nat)) × TorchGen) :=
  (seedRng wb g inputIds).bind fun g1 =>
    let greenlistSize := greenlistSizeOf wb
    let draw1 := randpermDraw g1 wb.vocab_size
    let vocabPermutation := draw1.1
    let g2 := draw1.2
    let greenlistIds := vocabPermutation.take greenlistSize
    let redlistIds := vocabPermutation.drop greenlistSize
    let g3 := manualSeed g2 (wb.hash_key * intOfBits wb.userid)
    let draw2 := randpermDraw g3 greenlistIds.length
    let depthPermutation := draw2.1
    let g4 := draw2.2
    (indexSelect greenlistIds depthPermutation).bind fun depthGreenIds =>
      (if redlistIds.length ≠ greenlistIds.length then
          (indexSelect redlistIds.dropLast depthPermutation).bind fun truncated =>
            (redlistIds.getLast?).map fun lastRed => truncated ++ [lastRed]
        else indexSelect redlistIds depthPermutation).bind fun depthRedIds =>
      if wb.gen_mode = "depth_d" then
        wb.depth.bind fun discreteDepth =>
          if discreteDepth = 0 then none
          else
            let gLen := greenlistSize / discreteDepth
            let rLen := greenlistSize / discreteDepth
            some ((greenlistIds, redlistIds,
                   dChunks depthGreenIds gLen discreteDepth,
                   dChunks depthRedIds rLen discreteDepth), g4)
      else some ((greenlistIds, redlistIds, ([] : List (List Nat)), ([] : List (List Nat))), g4)

set_option synthInstance.maxSize 512 in
instance :
    DecidableEq ((List Nat × List Nat × List (List Nat) × List (List Nat)) × TorchGen) :=
  inferInstance

/-- The green/red partition as the pure function of
`(hash key, V, gamma, previous token)` that `_get_greenlist_ids` computes: the
seeded vocabulary permutation split after the first `floor(gamma * V)`
elements. -/
def greenRedOf (hashKey V : Nat) (gamma : ℚ) (prevToken : Nat) : List Nat × List Nat :=
  let perm := randpermModel (hashKey * prevToken) V
  let k := intMulFloor V gamma
  (perm.take k, perm.drop k)

/-- The per-step preference bit of the generation step function
(`WatermarkLogitsProcessor_with_preferance.__call__`, lines 205-211): indexed
into the userid by the last (and in combination mode second-to-last) token of
the last batch row; fails on an empty userid (`ZeroDivisionError`), an empty
batch, or a too-short row (`IndexError`). -/
def stepPrefGen (wb : WatermarkBase) (inputIds : List (List Nat)) : Option Bool :=
  if wb.userid.isEmpty then none
  else
    match inputIds.getLast? with
    | none => none
    | some lastRow =>
      let n := wb.userid.length
      if wb.wm_mode = "previous1" then
        match lastRow.getLast? with
        | none => none
        | some t1 => some (wb.userid.getD (t1 % n) false)
      else
        if 2 ≤ lastRow.length then
          some (wb.userid.getD
            ((lastRow.getD (lastRow.length - 1) 0 * lastRow.getD (lastRow.length - 2) 0) % n) false)
        else none

/-- Score tensors `[batch][vocab]` are modelled as functions. -/
def ScoresTensor : Type := Nat → Nat → ℝ

/-- `_calc_greenlist_mask`: a boolean mask that is true exactly on
`(b_idx, id)` with `id` in the `b_idx`-th greenlist. -/
def calcGreenlistMask (greenlistTokenIds : List (List Nat)) : Nat → Nat → Bool :=
  fun b i => decide (i ∈ greenlistTokenIds.getD b [])

/-- The decayed bias `4.84 * e^(-1*0.001*idx_t)` of `_bias_greenlist_logits`. -/
noncomputable def decayBias (idxT : Nat) : ℝ :=
  4.84 * Real.exp (-1 * 0.001 * (idxT : ℝ))

/-- `_bias_greenlist_logits`: add the bias (overridden by the decay schedule
when `decrease_delta`) to every masked entry, leaving the rest unchanged. -/
noncomputable def biasGreenlistLogits (scores : ScoresTensor) (greenlistMask : Nat → Nat → Bool)
    (greenlistBias : ℝ) (decreaseDelta : Bool) (idxT : Nat) : ScoresTensor :=
  let b := if decreaseDelta then decayBias idxT else greenlistBias
  fun r i => if greenlistMask r i then scores r i + b else scores r i

/-- The loop of `_bias_depth_d_logits` (lines 144-147): note that the running
`delta` is reassigned to `delta * 0.5 ** i` at chunk `i`, so the increments
compound across chunks. -/
noncomputable def biasDepthDAux (nRows : Nat) :
    List (List Nat) → Nat → ℝ → ScoresTensor → ScoresTensor
  | [], _, _, scores => scores
  | m :: rest, i, delta, scores =>
    let deltaNew := delta * (1 / 2 : ℝ) ^ i
    biasDepthDAux nRows rest (i + 1) deltaNew
      (fun r c => if r < nRows ∧ c ∈ m then scores r c + deltaNew else scores r c)

/-- `WatermarkLogitsProcessor_with_preferance._bias_depth_d_logits`. -/
noncomputable def biasDepthDLogits (scores : ScoresTensor) (nRows : Nat)
    (dMasks : List (List Nat)) (delta : ℝ) : ScoresTensor :=
  biasDepthDAux nRows dMasks 0 delta scores

/-- The batch loop of `__call__` (lines 224-233): for each row, derive that
row's partition and keep the markable side selected by the shared preference
bit; the `d_masks` local retains the masks of the last iteration. -/
def batchLoop (wb : WatermarkBase) (pref : Bool) :
    TorchGen → List (List Nat) → Option (List (List Nat) × List (List Nat) × TorchGen)
  | g, [] => some ([], [], g)
  | g, row :: rest =>
    match getGreenlistIds wb g row with
    | none => none
    | some ((gl, rl, gm, rm), gNext) =>
      let ids := if pref then gl else rl
      let dm := if pref then gm else rm
      match batchLoop wb pref gNext rest with
      | none => none
      | some (idsRest, dmLast, gFinal) =>
        some (ids :: idsRest, if rest.isEmpty then dm else dmLast, gFinal)

/-- `WatermarkLogitsProcessor_with_preferance.__call__`: one generation step.
The `beam_delta` and `dynamic_delta` branches reference attributes that are
never initialized (`beam_width`, `window_length`) and call
`_calculate_beam_delta` with a stray argument, so they raise; they are
modelled as failures. -/
noncomputable def wmCall (wb : WatermarkBase) (g : TorchGen) (inputIds : List (List Nat))
    (scores : ScoresTensor) : Option ScoresTensor :=
  match stepPrefGen wb inputIds with
  | none => none
  | some pref =>
    match batchLoop wb pref g inputIds with
    | none => none
    | some (batchedGreenlistIds, dMasks, _gFinal) =>
      if wb.gen_mode = "depth_d" then
        some (biasDepthDLogits scores batchedGreenlistIds.length dMasks (wb.delta : ℝ))
      else if wb.gen_mode = "beam_delta" then none
      else if wb.gen_mode = "dynamic_delta" then none
      else
        let mask := calcGreenlistMask batchedGreenlistIds
        some (biasGreenlistLogits scores mask (wb.delta : ℝ) wb.decrease_delta (wb.idx_t + 1))

/-- `WatermarkDetector_with_preferance.__init__` (lines 283-288): the minimum
prefix length, `none` when the mode combination raises. -/
def minPrefixLen (wb : WatermarkBase) : Option Nat :=
  if wb.seeding_scheme = "simple_1" ∧ wb.wm_mode = "previous1" then some 1
  else if wb.wm_mode = "combination" then some 2
  else none

/-- The detector state accumulated by the standard scoring loop of
`_score_sequence`. -/
structure ScanState where
  g : TorchGen
  greenCount : Nat
  mark : List Bool
  mask : List Bool
  depthHit : List Nat
deriving DecidableEq

/-- The per-step preference bit of `_score_sequence` (lines 361-364), a pure
function of the observed tokens and the position. -/
def detPrefAt (wb : WatermarkBase) (tokens : List Nat) (idx : Nat) : Bool :=
  let n := wb.userid.length
  if wb.wm_mode = "previous1" then
    wb.userid.getD (tokens.getD (idx - 1) 0 % n) false
  else
    wb.userid.getD ((tokens.getD (idx - 1) 0 * tokens.getD (idx - 2) 0) % n) false

/-- The markable set consulted when scoring position `idx`: the green list of
the step's partition when the preference bit is 1, the red list when it is 0. -/
def markableAt (wb : WatermarkBase) (tokens : List Nat) (idx : Nat) : List Nat :=
  let pr := greenRedOf wb.hash_key wb.vocab_size wb.gamma ((tokens.take idx).getLast?.getD 0)
  if detPrefAt wb tokens idx then pr.1 else pr.2

/-- Whether the observed token at `idx` lies in the step's markable set. -/
def hitAt (wb : WatermarkBase) (tokens : List Nat) (idx : Nat) : Bool :=
  decide (tokens.getD idx 0 ∈ markableAt wb tokens idx)

/-- The mark bit recorded at `idx` by `_score_sequence` (lines 372-391): the
preference bit on a hit, its negation on a miss. -/
def markBitAt (wb : WatermarkBase) (tokens : List Nat) (idx : Nat) : Bool :=
  if hitAt wb tokens idx then detPrefAt wb tokens idx else !(detPrefAt wb tokens idx)

/-- The depth histogram update (lines 379-384): bump every chunk containing
the current token. -/
def bumpDepthHit (depthHit : List Nat) (dMasks : List (List Nat)) (curr : Nat) : List Nat :=
  depthHit.mapIdx (fun j c => if curr ∈ dMasks.getD j [] then c + 1 else c)

/-- One iteration of the standard scoring loop of `_score_sequence`
(lines 356-392). -/
def scoreStep (wb : WatermarkBase) (tokens : List Nat) (st : ScanState) (idx : Nat) :
    Option ScanState :=
  if wb.userid.isEmpty then none
  else
    let curr := tokens.getD idx 0
    let pref := detPrefAt wb tokens idx
    match getGreenlistIds wb st.g (tokens.take idx) with
    | none => none
    | some ((gl, rl, gm, rm), gNext) =>
      let greenlistIds := if pref then gl else rl
      let dMasks := if pref then gm else rm
      if curr ∈ greenlistIds then
        some { g := gNext, greenCount := st.greenCount + 1,
               mark := st.mark ++ [pref],
               mask := st.mask ++ [true],
               depthHit := if wb.gen_mode = "depth_d" then bumpDepthHit st.depthHit dMasks curr
                           else st.depthHit }
      else
        some { g := gNext, greenCount := st.greenCount,
               mark := st.mark ++ [!pref],
               mask := st.mask ++ [false],
               depthHit := st.depthHit }

/-- The scoring loop over the positions `min_prefix_len .. len - 1`. -/
def scoreLoop (wb : WatermarkBase) (tokens : List Nat) :
    List Nat → ScanState → Option ScanState
  | [], st => some st
  | idx :: rest, st =>
    match scoreStep wb tokens st idx with
    | none => none
    | some stNext => scoreLoop wb tokens rest stNext

/-- `WatermarkDetector_with_preferance._score_sequence`, standard (non-bigram)
path: check the scorable length, build the depth histogram
(`torch.zeros(self.args.depth)`, line 353 - this consults `args.depth`
unconditionally), then scan. -/
def scoreSequence (wb : WatermarkBase) (g : TorchGen) (tokens : List Nat) : Option ScanState :=
  match minPrefixLen wb with
  | none => none
  | some mpl =>
    if tokens.length - mpl < 1 then none
    else
      match wb.depth with
      | none => none
      | some d =>
        scoreLoop wb tokens (List.range' mpl (tokens.length - mpl))
          (ScanState.mk g 0 [] [] (List.replicate d 0))

/-- `WatermarkDetector_with_preferance._compute_z_score`:
`z = (count - gamma*T) / sqrt(T * gamma * (1 - gamma))`. -/
noncomputable def computeZScore (wb : WatermarkBase) (observedCount T : Nat) : ℝ :=
  let expectedCount : ℝ := (wb.gamma : ℝ)
  ((observedCount : ℝ) - expectedCount * (T : ℝ)) /
    Real.sqrt ((T : ℝ) * expectedCount * (1 - expectedCount))

/-- Modelled from the spec: `scipy.stats.norm.sf(z)` (external to this
repository) is the one-sided upper-tail standard-normal survival probability,
the standard Gaussian measure of `(z, ∞)`. -/
noncomputable def computePValue (z : ℝ) : ℝ :=
  (ProbabilityTheory.gaussianReal 0 1 (Set.Ioi z)).toReal

/-- The default detector threshold `z_threshold = 4.0`. -/
def defaultZThreshold : ℝ := 4

open Classical in
/-- The hypothesis test of `detect` (lines 485-490): `prediction = z > threshold`
and `confidence = 1 - p` recorded exactly on positive predictions. -/
noncomputable def detectOutcome (z threshold p : ℝ) : Bool × Option ℝ :=
  (decide (z > threshold), if z > threshold then some (1 - p) else none)

/-- The input handling of `detect` (lines 442-477): the xor assert over
raw text and pre-tokenized ids, the normalizer loop (which applies every
configured normalizer to `text` even when only ids were supplied - applying a
text normalizer, modelled from the spec as a `String → String` function, to
the absent text raises), tokenization of raw text, and BOS stripping. -/
def detectPrepare (tok : String → List Nat) (bosTokenId : Nat)
    (normalizers : List (String → String))
    (text : Option String) (tokenizedText : Option (List Nat)) : Option (List Nat) :=
  match text, tokenizedText with
  | some _, some _ => none
  | none, none => none
  | some t, none =>
    let tNorm := normalizers.foldl (fun s f => f s) t
    match tok tNorm with
    | [] => none
    | t0 :: rest => some (if t0 = bosTokenId then rest else t0 :: rest)
  | none, some ids =>
    if normalizers.isEmpty then
      match ids with
      | [] => none
      | t0 :: rest => some (if t0 = bosTokenId then rest else t0 :: rest)
    else none

/-- `WatermarkDetector_with_preferance.detect`: input handling followed by the
standard scoring path. -/
def detect (wb : WatermarkBase) (g : TorchGen) (tok : String → List Nat) (bosTokenId : Nat)
    (normalizers : List (String → String))
    (text : Option String) (tokenizedText : Option (List Nat)) : Option ScanState :=
  (detectPrepare tok bosTokenId normalizers text tokenizedText).bind fun ids =>
    scoreSequence wb g ids

/-! ### Concrete configurations used by witnesses and counterexamples -/

/-- Concrete configuration for the C1 witness (userid `"1"`). -/
def wbC1a : WatermarkBase := ⟨4, mkRat 1 2, false, 2, "previous1", "simple_1", 1, [true], 0, "normal", none⟩

/-- Concrete configuration for the C1 witness: same hash key, vocab size and
gamma as `wbC1a`, every other field different. -/
def wbC1b : WatermarkBase :=
  ⟨4, mkRat 1 2, true, 5, "combination", "simple_1", 1, [true, false], 3, "normal", some 2⟩

/-- Concrete configuration for the C2 witness. -/
def wbC2 : WatermarkBase := ⟨4, mkRat 1 2, false, 2, "previous1", "simple_1", 1, [true], 0, "normal", some 1⟩

/-- Concrete configuration for the C3 scenario (`gamma = 0.5`). -/
def wbC3 : WatermarkBase := ⟨50257, mkRat 1 2, true, 2, "combination", "simple_1", 15485863, [true, false], 0, "normal", none⟩

/-- Concrete configuration for C4 (userid `"0"`, so the preference bit is
always 0 and the markable set is the red list). -/
def wbC4 : WatermarkBase := ⟨4, mkRat 1 2, false, 2, "previous1", "simple_1", 1, [false], 0, "normal", some 1⟩

/-- Concrete configuration for C5 (userid `"10"`, so batch rows whose last
tokens have different parity get different own-history preference bits). -/
def wbC5 : WatermarkBase := ⟨4, mkRat 1 2, false, 2, "previous1", "simple_1", 1, [true, false], 0, "normal", none⟩

/-- The cumulative exponent `0 + 1 + ... + i` accumulated by the reassigned
running delta of `_bias_depth_d_logits` up to chunk `i`. -/
def cumExp : Nat → Nat
  | 0 => 0
  | j + 1 => cumExp j + (j + 1)

/-- Concrete configuration for C7: `gamma = 1/5`, `V = 10`, `depth_d` with
depth 2, so the red list (8 ids) is much longer than the green list (2 ids). -/
def wbC7 : WatermarkBase := ⟨10, mkRat 1 5, false, 2, "previous1", "simple_1", 1, [true], 0, "depth_d", some 2⟩

/-! ### Basic facts about the permutation model -/

theorem intMulFloor_eq_floor (V : Nat) (g : ℚ) (h : 0 ≤ g) :
    (intMulFloor V g : ℤ) = Int.floor ((V : ℚ) * g) := by
  have hq : (V : ℚ) * g = (((V : Int) * g.num : ℤ) : ℚ) / ((g.den : ℕ) : ℚ) := by
    conv_lhs => rw [← Rat.num_div_den g]
    push_cast
    ring
  rw [hq, Rat.floor_intCast_div_natCast]
  have hnum : 0 ≤ (V : Int) * g.num := by
    have := Rat.num_nonneg.mpr h
    positivity
  have hden : 0 ≤ (g.den : Int) := by positivity
  unfold intMulFloor
  rw [Int.toNat_of_nonneg (Int.ediv_nonneg hnum hden)]

theorem fyDraw_perm : ∀ (fuel : Nat) (s : Nat) (xs : List Nat), xs.length = fuel →
    (fyDraw s fuel xs).Perm xs := by
  intro fuel
  induction fuel with
  | zero =>
    intro s xs h
    rw [List.length_eq_zero] at h
    subst h
    simp [fyDraw]
  | succ n ih =>
    intro s xs h
    have hne : xs ≠ [] := by
      intro hcon
      subst hcon
      simp at h
    have hlt : s % xs.length < xs.length := Nat.mod_lt _ (by omega)
    have hlen : (xs.eraseIdx (s % xs.length)).length = n := by
      have := List.length_eraseIdx_add_one hlt
      omega
    have hrec := ih (lcgNext s) (xs.eraseIdx (s % xs.length)) hlen
    have hget : xs.getD (s % xs.length) 0 = xs.get ⟨s % xs.length, hlt⟩ := by
      rw [List.getD_eq_getElem _ _ hlt]
      simp
    have hsplit : List.Perm (xs.getD (s % xs.length) 0 :: xs.eraseIdx (s % xs.length)) xs := by
      rw [hget, List.eraseIdx_eq_take_drop_succ]
      have hback : xs.take (s % xs.length) ++
          xs.get ⟨s % xs.length, hlt⟩ :: xs.drop (s % xs.length + 1) = xs := by
        conv_rhs => rw [← List.take_append_drop (s % xs.length) xs]
        congr 1
        exact Eq.symm (List.drop_eq_getElem_cons hlt)
      conv_rhs => rw [← hback]
      exact List.perm_middle.symm
    have hstep : fyDraw s (n + 1) xs
        = xs.getD (s % xs.length) 0 :: fyDraw (lcgNext s) n (xs.eraseIdx (s % xs.length)) := rfl
    rw [hstep]
    exact List.Perm.trans (List.Perm.cons _ hrec) hsplit

theorem randpermModel_perm (s n : Nat) : (randpermModel s n).Perm (List.range n) :=
  fyDraw_perm n s (List.range n) (List.length_range n)

theorem randpermModel_length (s n : Nat) : (randpermModel s n).length = n := by
  rw [(randpermModel_perm s n).length_eq, List.length_range]

theorem randpermModel_mem_lt {s n i : Nat} (h : i ∈ randpermModel s n) : i < n := by
  have := (randpermModel_perm s n).mem_iff.mp h
  simpa [List.mem_range] using this

theorem randpermModel_nodup (s n : Nat) : (randpermModel s n).Nodup :=
  ((randpermModel_perm s n).nodup_iff).mpr (List.nodup_range n)

theorem map_getD_range : ∀ (xs : List Nat),
    (List.range xs.length).map (fun i => xs.getD i 0) = xs := by
  intro xs
  induction xs with
  | nil => rfl
  | cons x xs ih =>
    rw [List.length_cons, List.range_succ_eq_map, List.map_cons, List.map_map]
    have hcomp : (List.range xs.length).map ((fun i => (x :: xs).getD i 0) ∘ Nat.succ)
        = (List.range xs.length).map (fun i => xs.getD i 0) := by
      apply List.map_congr_left
      intro i _hi
      exact List.getD_cons_succ
    rw [hcomp, ih]
    rfl

theorem indexSelect_eq_some {xs is : List Nat} (h : ∀ i ∈ is, i < xs.length) :
    indexSelect xs is = some (is.map (fun i => xs.getD i 0)) := by
  unfold indexSelect
  rw [if_pos]
  rw [List.all_eq_true]
  intro i hi
  exact decide_eq_true (h i hi)

theorem indexSelect_perm {xs is ys : List Nat} (hp : is.Perm (List.range xs.length))
    (h : indexSelect xs is = some ys) : ys.Perm xs := by
  have hlt : ∀ i ∈ is, i < xs.length := by
    intro i hi
    have := hp.mem_iff.mp hi
    simpa [List.mem_range] using this
  rw [indexSelect_eq_some hlt] at h
  cases h
  exact List.Perm.trans (hp.map _) (by rw [map_getD_range])

theorem dChunks_flatten : ∀ (d : Nat), 1 ≤ d → ∀ (xs : List Nat) (L : Nat),
    (dChunks xs L d).flatten = xs := by
  intro d
  induction d with
  | zero => omega
  | succ n ih =>
    intro _hd xs L
    by_cases hn : n = 0
    · subst hn
      show (dChunks xs L 1).flatten = xs
      unfold dChunks
      rw [show List.range 1 = [0] from rfl, List.map_cons, List.map_nil, if_pos rfl]
      simp
    · have h1n : 1 ≤ n := by omega
      unfold dChunks
      rw [List.range_succ_eq_map, List.map_cons, List.map_map]
      have hhead : (if (0 : Nat) = n + 1 - 1 then xs.drop (0 * L) else (xs.drop (0 * L)).take L)
          = xs.take L := by
        rw [if_neg (by omega)]
        simp
      have htail : (List.range n).map
            ((fun i => if i = n + 1 - 1 then xs.drop (i * L) else (xs.drop (i * L)).take L) ∘ Nat.succ)
          = dChunks (xs.drop L) L n := by
        unfold dChunks
        apply List.map_congr_left
        intro i _hi
        simp only [Function.comp_apply]
        have harith : (i + 1) * L = L + i * L := by ring
        by_cases hlast : i = n - 1
        · rw [if_pos (by omega), if_pos hlast, List.drop_drop, harith]
        · rw [if_neg (by omega), if_neg hlast, List.drop_drop, harith]
      rw [hhead, htail, List.flatten_cons, ih h1n (xs.drop L) L, List.take_append_drop]

/-! ### Anatomy of `getGreenlistIds` -/

/-- The body of `_get_greenlist_ids` after the reseed has been resolved: a pure
function of the previous token (proof bridge; proved equal to
`getGreenlistIds` below). -/
def greenlistCore (wb : WatermarkBase) (p : Nat) :
    Option ((List Nat × List Nat × List (List Nat) × List (List Nat)) × TorchGen) :=
  let k := greenlistSizeOf wb
  let perm := randpermModel (wb.hash_key * p) wb.vocab_size
  let gl := perm.take k
  let rl := perm.drop k
  let dstate := wb.hash_key * intOfBits wb.userid
  let dperm := randpermModel dstate gl.length
  let gOut := TorchGen.mk (lcgNext dstate)
  (indexSelect gl dperm).bind fun dg =>
    (if rl.length ≠ gl.length then
        (indexSelect rl.dropLast dperm).bind fun truncated =>
          (rl.getLast?).map fun lastRed => truncated ++ [lastRed]
      else indexSelect rl dperm).bind fun dr =>
    if wb.gen_mode = "depth_d" then
      wb.depth.bind fun d =>
        if d = 0 then none
        else some ((gl, rl, dChunks dg (k / d) d, dChunks dr (k / d) d), gOut)
    else some ((gl, rl, ([] : List (List Nat)), ([] : List (List Nat))), gOut)

theorem getGreenlistIds_eq_core (wb : WatermarkBase) (g : TorchGen) (input : List Nat) (p : Nat)
    (hs : wb.seeding_scheme = "simple_1") (hp : input.getLast? = some p) :
    getGreenlistIds wb g input = greenlistCore wb p := by
  unfold getGreenlistIds seedRng
  rw [if_pos hs, hp]
  unfold greenlistCore
  rfl

theorem getGreenlistIds_shape {wb : WatermarkBase} {g : TorchGen} {input : List Nat}
    {r : (List Nat × List Nat × List (List Nat) × List (List Nat)) × TorchGen}
    (h : getGreenlistIds wb g input = some r) :
    wb.seeding_scheme = "simple_1" ∧ ∃ p, input.getLast? = some p := by
  unfold getGreenlistIds seedRng at h
  by_cases hs : wb.seeding_scheme = "simple_1"
  · rw [if_pos hs] at h
    cases hp : input.getLast? with
    | none => rw [hp] at h; exact absurd h (by simp)
    | some p => exact ⟨hs, p, rfl⟩
  · rw [if_neg hs] at h
    exact absurd h (by simp)

theorem greenlistCore_components {wb : WatermarkBase} {p : Nat}
    {gl rl : List Nat} {gm rm : List (List Nat)} {gOut : TorchGen}
    (h : greenlistCore wb p = some ((gl, rl, gm, rm), gOut)) :
    gl = (greenRedOf wb.hash_key wb.vocab_size wb.gamma p).1 ∧
    rl = (greenRedOf wb.hash_key wb.vocab_size wb.gamma p).2 ∧
    gOut = TorchGen.mk (lcgNext (wb.hash_key * intOfBits wb.userid)) := by
  simp only [greenlistCore] at h
  rw [Option.bind_eq_some] at h
  obtain ⟨dg, _hdg, h⟩ := h
  rw [Option.bind_eq_some] at h
  obtain ⟨dr, _hdr, h⟩ := h
  simp only [greenRedOf, greenlistSizeOf]
  by_cases hmode : wb.gen_mode = "depth_d"
  · rw [if_pos hmode, Option.bind_eq_some] at h
    obtain ⟨d, _hd, h⟩ := h
    by_cases hd0 : d = 0
    · rw [if_pos hd0] at h
      exact absurd h (by simp)
    · rw [if_neg hd0] at h
      simp only [Option.some.injEq, Prod.mk.injEq] at h
      exact ⟨h.1.1.symm, h.1.2.1.symm, h.2.symm⟩
  · rw [if_neg hmode] at h
    simp only [Option.some.injEq, Prod.mk.injEq] at h
    exact ⟨h.1.1.symm, h.1.2.1.symm, h.2.symm⟩

theorem greenlistCore_normal_eq (wb : WatermarkBase) (p : Nat)
    (hk2 : 2 * greenlistSizeOf wb ≤ wb.vocab_size) (hmode : wb.gen_mode ≠ "depth_d") :
    greenlistCore wb p =
      some (((greenRedOf wb.hash_key wb.vocab_size wb.gamma p).1,
             (greenRedOf wb.hash_key wb.vocab_size wb.gamma p).2,
             ([] : List (List Nat)), ([] : List (List Nat))),
            TorchGen.mk (lcgNext (wb.hash_key * intOfBits wb.userid))) := by
  have hkV : greenlistSizeOf wb ≤ wb.vocab_size := by omega
  have hpermlen : (randpermModel (wb.hash_key * p) wb.vocab_size).length = wb.vocab_size :=
    randpermModel_length _ _
  have hglen : ((randpermModel (wb.hash_key * p) wb.vocab_size).take (greenlistSizeOf wb)).length
      = greenlistSizeOf wb := by
    rw [List.length_take, hpermlen]
    omega
  have hrlen : ((randpermModel (wb.hash_key * p) wb.vocab_size).drop (greenlistSizeOf wb)).length
      = wb.vocab_size - greenlistSizeOf wb := by
    rw [List.length_drop, hpermlen]
  simp only [greenlistCore, greenRedOf, greenlistSizeOf] at *
  set k := intMulFloor wb.vocab_size wb.gamma with hkdef
  set perm := randpermModel (wb.hash_key * p) wb.vocab_size with hpermdef
  set dperm := randpermModel (wb.hash_key * intOfBits wb.userid) (perm.take k).length with hdpermdef
  have hdlt : ∀ i ∈ dperm, i < (perm.take k).length := fun i hi => randpermModel_mem_lt hi
  rw [indexSelect_eq_some hdlt, Option.some_bind]
  by_cases hEq : (perm.drop k).length = (perm.take k).length
  · rw [if_neg (not_ne_iff.mpr hEq)]
    have hdlt2 : ∀ i ∈ dperm, i < (perm.drop k).length := by
      rw [hEq]
      exact hdlt
    rw [indexSelect_eq_some hdlt2, Option.some_bind, if_neg hmode]
  · rw [if_pos hEq]
    have hklt : k < wb.vocab_size - k := by
      rw [hglen, hrlen] at hEq
      omega
    have hdllen : (perm.drop k).dropLast.length = wb.vocab_size - k - 1 := by
      rw [List.length_dropLast, hrlen]
    have hdlt3 : ∀ i ∈ dperm, i < (perm.drop k).dropLast.length := by
      intro i hi
      have := hdlt i hi
      rw [hglen] at this
      omega
    rw [indexSelect_eq_some hdlt3, Option.some_bind]
    have hrne : perm.drop k ≠ [] := by
      intro hcon
      rw [hcon] at hrlen
      simp at hrlen
      omega
    obtain ⟨lr, hlr⟩ := Option.isSome_iff_exists.mp (List.getLast?_isSome.mpr hrne)
    rw [hlr, Option.map_some', Option.some_bind, if_neg hmode]

theorem getGreenlistIds_normal_eq (wb : WatermarkBase) (g : TorchGen) (input : List Nat) (p : Nat)
    (hs : wb.seeding_scheme = "simple_1") (hp : input.getLast? = some p)
    (hk2 : 2 * greenlistSizeOf wb ≤ wb.vocab_size) (hmode : wb.gen_mode ≠ "depth_d") :
    getGreenlistIds wb g input =
      some (((greenRedOf wb.hash_key wb.vocab_size wb.gamma p).1,
             (greenRedOf wb.hash_key wb.vocab_size wb.gamma p).2,
             ([] : List (List Nat)), ([] : List (List Nat))),
            TorchGen.mk (lcgNext (wb.hash_key * intOfBits wb.userid))) := by
  rw [getGreenlistIds_eq_core wb g input p hs hp]
  exact greenlistCore_normal_eq wb p hk2 hmode

/-! ### Claim C1 -/

/-- C1: for every fixed (hash key, vocabulary size, gamma, previous token),
every successful invocation of the greenlist derivation (`_seed_rng` followed
by `_get_greenlist_ids`) returns bit-identical `(green_ids, red_ids)`: the
pair is a deterministic function of those four inputs, identical across
repeated and independent calls, whatever the incoming generator states and
the remaining configuration. -/
theorem C1_greenlist_determinism (wbA wbB : WatermarkBase) (gA gB : TorchGen)
    (inA inB : List Nat)
    (hHash : wbA.hash_key = wbB.hash_key) (hV : wbA.vocab_size = wbB.vocab_size)
    (hGamma : wbA.gamma = wbB.gamma) (hPrev : inA.getLast? = inB.getLast?)
    (hA : (getGreenlistIds wbA gA inA).isSome) (hB : (getGreenlistIds wbB gB inB).isSome) :
    (getGreenlistIds wbA gA inA).map (fun r => (r.1.1, r.1.2.1)) =
    (getGreenlistIds wbB gB inB).map (fun r => (r.1.1, r.1.2.1)) := by
  obtain ⟨rA, hrA⟩ := Option.isSome_iff_exists.mp hA
  obtain ⟨rB, hrB⟩ := Option.isSome_iff_exists.mp hB
  obtain ⟨⟨glA, rlA, gmA, rmA⟩, gOutA⟩ := rA
  obtain ⟨⟨glB, rlB, gmB, rmB⟩, gOutB⟩ := rB
  obtain ⟨hsA, pA, hpA⟩ := getGreenlistIds_shape hrA
  obtain ⟨hsB, pB, hpB⟩ := getGreenlistIds_shape hrB
  have hpEq : pA = pB := by
    rw [hpA, hpB] at hPrev
    exact Option.some.inj hPrev
  rw [getGreenlistIds_eq_core wbA gA inA pA hsA hpA] at hrA
  rw [getGreenlistIds_eq_core wbB gB inB pB hsB hpB] at hrB
  obtain ⟨hglA, hrlA, _⟩ := greenlistCore_components hrA
  obtain ⟨hglB, hrlB, _⟩ := greenlistCore_components hrB
  rw [getGreenlistIds_eq_core wbA gA inA pA hsA hpA,
      getGreenlistIds_eq_core wbB gB inB pB hsB hpB, hrA, hrB]
  simp only [Option.map_some']
  rw [hglA, hrlA, hglB, hrlB, hHash, hV, hGamma, hpEq]


/-- Witness for C1: two invocations with different configurations, generator
states and prefixes, but equal (key, V, gamma, previous token), produce the
same (green, red) pair. -/
theorem C1_greenlist_determinism_witness :
    (getGreenlistIds wbC1a (TorchGen.mk 7) [9, 3]).map (fun r => (r.1.1, r.1.2.1)) =
    (getGreenlistIds wbC1b (TorchGen.mk 42) [3]).map (fun r => (r.1.1, r.1.2.1)) :=
  C1_greenlist_determinism wbC1a wbC1b (TorchGen.mk 7) (TorchGen.mk 42) [9, 3] [3]
    rfl rfl rfl (by decide) (by decide) (by decide)

/-! ### Claim C2 -/

/-- C2: for every configuration with `V ≥ 1` and `gamma ∈ [0, 1]`, the
partition returned by `_get_greenlist_ids` is disjoint, covers exactly the id
space `[0, V)`, has sizes summing to `V` with `|green| = floor(gamma * V)`,
and is a pure function of `(seed, V, gamma)` (equal for any two invocations
agreeing on hash key, vocab size, gamma and previous token). -/
theorem C2_partition_properties (wb : WatermarkBase) (g : TorchGen) (input : List Nat)
    (gl rl : List Nat) (gm rm : List (List Nat)) (gOut : TorchGen)
    (hV : 1 ≤ wb.vocab_size) (hg0 : 0 ≤ wb.gamma) (hg1 : wb.gamma ≤ 1)
    (h : getGreenlistIds wb g input = some ((gl, rl, gm, rm), gOut)) :
    gl.Disjoint rl ∧
    (∀ id, (id ∈ gl ∨ id ∈ rl) ↔ id < wb.vocab_size) ∧
    gl.length + rl.length = wb.vocab_size ∧
    (gl.length : ℤ) = Int.floor (wb.gamma * (wb.vocab_size : ℚ)) ∧
    (∀ (wbB : WatermarkBase) (gB : TorchGen) (inputB : List Nat) glB rlB gmB rmB gOutB,
      wbB.hash_key = wb.hash_key → wbB.vocab_size = wb.vocab_size → wbB.gamma = wb.gamma →
      inputB.getLast? = input.getLast? →
      getGreenlistIds wbB gB inputB = some ((glB, rlB, gmB, rmB), gOutB) →
      glB = gl ∧ rlB = rl) := by
  obtain ⟨hs, p, hp⟩ := getGreenlistIds_shape h
  rw [getGreenlistIds_eq_core wb g input p hs hp] at h
  obtain ⟨hgl, hrl, _⟩ := greenlistCore_components h
  have hfloor0 : (0 : ℤ) ≤ Int.floor ((wb.vocab_size : ℚ) * wb.gamma) := by
    apply Int.floor_nonneg.mpr
    positivity
  have hfloorV : Int.floor ((wb.vocab_size : ℚ) * wb.gamma) ≤ (wb.vocab_size : ℤ) := by
    have hle : (wb.vocab_size : ℚ) * wb.gamma ≤ (wb.vocab_size : ℚ) := by
      nlinarith [hg1, hg0]
    calc Int.floor ((wb.vocab_size : ℚ) * wb.gamma) ≤ Int.floor ((wb.vocab_size : ℚ)) :=
          Int.floor_le_floor hle
      _ = (wb.vocab_size : ℤ) := Int.floor_natCast _
  have hbridge : (intMulFloor wb.vocab_size wb.gamma : ℤ)
      = Int.floor ((wb.vocab_size : ℚ) * wb.gamma) := intMulFloor_eq_floor _ _ hg0
  have hkV : greenlistSizeOf wb ≤ wb.vocab_size := by
    unfold greenlistSizeOf
    omega
  have hpermlen : (randpermModel (wb.hash_key * p) wb.vocab_size).length = wb.vocab_size :=
    randpermModel_length _ _
  have hnd : (randpermModel (wb.hash_key * p) wb.vocab_size).Nodup := randpermModel_nodup _ _
  have hglrl : gl ++ rl = randpermModel (wb.hash_key * p) wb.vocab_size := by
    rw [hgl, hrl]
    unfold greenRedOf
    exact List.take_append_drop _ _
  have hglen : gl.length = greenlistSizeOf wb := by
    rw [hgl]
    unfold greenRedOf greenlistSizeOf
    simp only [List.length_take, hpermlen]
    omega
  refine ⟨?_, ?_, ?_, ?_, ?_⟩
  · have := hglrl ▸ hnd
    exact (List.nodup_append.mp this).2.2
  · intro id
    have hmem : id ∈ gl ++ rl ↔ id ∈ List.range wb.vocab_size := by
      rw [hglrl]
      exact (randpermModel_perm _ _).mem_iff
    rw [← List.mem_append, hmem, List.mem_range]
  · have := congrArg List.length hglrl
    rw [List.length_append, hpermlen] at this
    exact this
  · rw [hglen]
    unfold greenlistSizeOf
    rw [hbridge, mul_comm]
  · intro wbB gB inputB glB rlB gmB rmB gOutB hHash hV2 hGamma hPrev hB
    obtain ⟨hsB, pB, hpB⟩ := getGreenlistIds_shape hB
    have hpEq : pB = p := by
      rw [hpB, hp] at hPrev
      exact Option.some.inj hPrev
    rw [getGreenlistIds_eq_core wbB gB inputB pB hsB hpB] at hB
    obtain ⟨hglB, hrlB, _⟩ := greenlistCore_components hB
    rw [hglB, hrlB, hgl, hrl, hHash, hV2, hGamma, hpEq]
    exact ⟨rfl, rfl⟩


/-- Witness for C2: at a concrete configuration the returned green and red
lists are disjoint. -/
theorem C2_partition_properties_witness : ([3, 1] : List Nat).Disjoint [2, 0] :=
  (C2_partition_properties wbC2 (TorchGen.mk 0) [3] [3, 1] [2, 0] [] [] (TorchGen.mk 1103527590)
    (by decide) (by decide) (by decide) (by decide)).1

/-! ### Claim C3 -/

/-- C3: the detector computes `z = (green_count - gamma*T) / sqrt(T*gamma*(1-gamma))`,
`p` as the one-sided upper-tail standard-normal survival probability at `z`,
`prediction = (z > z_threshold)` with default threshold `4.0`, and
`confidence = 1 - p` exactly when the prediction is true; in particular
`T = 100`, `green_count = 60`, `gamma = 0.5` gives `z = 2` and a false
prediction at threshold `4`. -/
theorem C3_detector_statistic :
    (∀ (wb : WatermarkBase) (c T : Nat),
      computeZScore wb c T =
        ((c : ℝ) - (wb.gamma : ℝ) * (T : ℝ)) /
          Real.sqrt ((T : ℝ) * (wb.gamma : ℝ) * (1 - (wb.gamma : ℝ)))) ∧
    (∀ z : ℝ, computePValue z = (ProbabilityTheory.gaussianReal 0 1 (Set.Ioi z)).toReal) ∧
    defaultZThreshold = 4 ∧
    (∀ z thr p : ℝ,
      ((detectOutcome z thr p).1 = true ↔ z > thr) ∧
      (z > thr → (detectOutcome z thr p).2 = some (1 - p)) ∧
      (¬ z > thr → (detectOutcome z thr p).2 = none)) ∧
    computeZScore wbC3 60 100 = 2 ∧
    (detectOutcome (computeZScore wbC3 60 100) defaultZThreshold (computePValue 2)).1 = false := by
  have hgamma : ((wbC3.gamma : ℚ) : ℝ) = 1 / 2 := by
    norm_num [wbC3, Rat.mkRat_eq_div]
  have hz : computeZScore wbC3 60 100 = 2 := by
    unfold computeZScore
    simp only [hgamma]
    push_cast
    have hsq : Real.sqrt ((100 : ℝ) * (1 / 2) * (1 - 1 / 2)) = 5 := by
      rw [show ((100 : ℝ) * (1 / 2) * (1 - 1 / 2)) = 5 ^ 2 by norm_num]
      exact Real.sqrt_sq (by norm_num)
    rw [hsq]
    norm_num
  refine ⟨fun wb c T => rfl, fun z => rfl, rfl, ?_, hz, ?_⟩
  · intro z thr p
    refine ⟨decide_eq_true_iff, fun h => ?_, fun h => ?_⟩
    · unfold detectOutcome
      simp only [if_pos h]
    · unfold detectOutcome
      simp only [if_neg h]
  · rw [hz]
    unfold detectOutcome defaultZThreshold
    simp only
    rw [decide_eq_false_iff_not]
    norm_num

/-- Witness for C3: the positive-prediction branch records `confidence = 1 - p`
at a concrete `z` above the threshold. -/
theorem C3_detector_statistic_witness :
    (detectOutcome 5 4 (computePValue 5)).2 = some (1 - computePValue 5) :=
  (C3_detector_statistic.2.2.2.1 5 4 (computePValue 5)).2.1 (by norm_num)

/-! ### Claim C4 -/

theorem getGreenlistIds_green_red {wb : WatermarkBase} {g : TorchGen} {input : List Nat}
    {gl rl : List Nat} {gm rm : List (List Nat)} {gOut : TorchGen}
    (h : getGreenlistIds wb g input = some ((gl, rl, gm, rm), gOut)) :
    ∃ p, input.getLast? = some p ∧
      gl = (greenRedOf wb.hash_key wb.vocab_size wb.gamma p).1 ∧
      rl = (greenRedOf wb.hash_key wb.vocab_size wb.gamma p).2 := by
  obtain ⟨hs, p, hp⟩ := getGreenlistIds_shape h
  rw [getGreenlistIds_eq_core wb g input p hs hp] at h
  obtain ⟨h1, h2, _⟩ := greenlistCore_components h
  exact ⟨p, hp, h1, h2⟩

theorem scoreStep_mark {wb : WatermarkBase} {tokens : List Nat} {st stNext : ScanState}
    {idx : Nat} (h : scoreStep wb tokens st idx = some stNext) :
    stNext.mark = st.mark ++ [markBitAt wb tokens idx] := by
  unfold scoreStep at h
  by_cases hu : wb.userid.isEmpty
  · rw [if_pos hu] at h
    exact absurd h (by simp)
  · rw [if_neg hu] at h
    cases hg : getGreenlistIds wb st.g (tokens.take idx) with
    | none =>
      rw [hg] at h
      exact absurd h (by simp)
    | some val =>
      obtain ⟨⟨gl, rl, gm, rm⟩, gNext⟩ := val
      rw [hg] at h
      obtain ⟨p, hp, hgl, hrl⟩ := getGreenlistIds_green_red hg
      have hmark : (if detPrefAt wb tokens idx then gl else rl)
          = markableAt wb tokens idx := by
        unfold markableAt
        rw [hp, Option.getD_some, hgl, hrl]
      have hhit : hitAt wb tokens idx
          = decide (tokens.getD idx 0 ∈ (if detPrefAt wb tokens idx then gl else rl)) := by
        unfold hitAt
        rw [hmark]
      dsimp only at h
      by_cases hmem : tokens.getD idx 0 ∈ (if detPrefAt wb tokens idx then gl else rl)
      · rw [if_pos hmem] at h
        cases h
        unfold markBitAt
        rw [hhit, decide_eq_true hmem, if_pos rfl]
      · rw [if_neg hmem] at h
        cases h
        unfold markBitAt
        rw [hhit, decide_eq_false hmem]
        simp

theorem scoreLoop_mark {wb : WatermarkBase} {tokens : List Nat} :
    ∀ (idxs : List Nat) (st stOut : ScanState),
      scoreLoop wb tokens idxs st = some stOut →
      stOut.mark = st.mark ++ idxs.map (fun idx => markBitAt wb tokens idx) := by
  intro idxs
  induction idxs with
  | nil =>
    intro st stOut h
    unfold scoreLoop at h
    cases h
    simp
  | cons idx rest ih =>
    intro st stOut h
    unfold scoreLoop at h
    cases hstep : scoreStep wb tokens st idx with
    | none =>
      rw [hstep] at h
      exact absurd h (by simp)
    | some stMid =>
      rw [hstep] at h
      have h1 := scoreStep_mark hstep
      have h2 := ih stMid stOut h
      rw [h2, h1, List.map_cons, List.append_assoc]
      rfl

/-- C4, counterexample to the claim as stated: with userid `"0"` the
preference bit at the scored position is 0, so the markable set is the red
list; the observed token 2 lies in that markable set (a hit, counted in
`green_token_count`), yet the recorded mark bit is 0, not 1. -/
theorem C4_mark_bit_counterexample :
    (scoreSequence wbC4 (TorchGen.mk 0) [0, 2]).map (fun st => st.mark) = some [false] ∧
    detPrefAt wbC4 [0, 2] 1 = false ∧
    (2 : Nat) ∈ markableAt wbC4 [0, 2] 1 ∧
    hitAt wbC4 [0, 2] 1 = true ∧
    (scoreSequence wbC4 (TorchGen.mk 0) [0, 2]).map (fun st => st.greenCount) = some 1 := by
  decide

/-- C4 amended: for every successful standard scoring run, the mark bitstring
has one bit per scored position, and the bit at position `t` is the preference
bit when the token is a hit and its negation otherwise - equivalently, the bit
is 1 exactly when the hit indicator coincides with the preference bit (raw
green membership for in-vocabulary tokens), not when the token is in the
markable set. -/
theorem C4_mark_bit_amended (wb : WatermarkBase) (g : TorchGen) (tokens : List Nat)
    (st : ScanState) (mpl : Nat)
    (hmpl : minPrefixLen wb = some mpl)
    (h : scoreSequence wb g tokens = some st) :
    st.mark.length = tokens.length - mpl ∧
    ∀ j, j < tokens.length - mpl →
      st.mark.getD j false = markBitAt wb tokens (mpl + j) ∧
      (markBitAt wb tokens (mpl + j) = true ↔
        hitAt wb tokens (mpl + j) = detPrefAt wb tokens (mpl + j)) := by
  unfold scoreSequence at h
  rw [hmpl] at h
  dsimp only at h
  by_cases hT : tokens.length - mpl < 1
  · rw [if_pos hT] at h
    exact absurd h (by simp)
  · rw [if_neg hT] at h
    cases hd : wb.depth with
    | none =>
      rw [hd] at h
      exact absurd h (by simp)
    | some d =>
      rw [hd] at h
      have hmark := scoreLoop_mark _ _ _ h
      simp only [List.nil_append] at hmark
      have hlen : st.mark.length = tokens.length - mpl := by
        rw [hmark, List.length_map, List.length_range']
      refine ⟨hlen, fun j hj => ⟨?_, ?_⟩⟩
      · rw [hmark]
        have hjlt2 : j < (List.map (fun idx => markBitAt wb tokens idx)
            (List.range' mpl (tokens.length - mpl))).length := by
          rw [List.length_map, List.length_range']
          omega
        rw [List.getD_eq_getElem _ _ hjlt2, List.getElem_map]
        congr 1
        exact List.getElem_range'_1 _ _
      · unfold markBitAt
        cases hh : hitAt wb tokens (mpl + j) <;>
          cases hp : detPrefAt wb tokens (mpl + j) <;> simp [hh, hp]

/-- Witness for C4 amended: at the concrete C4 run the recorded bit at scored
position 0 equals the step's mark bit function. -/
theorem C4_mark_bit_amended_witness :
    (ScanState.mk (TorchGen.mk 12345) 1 [false] [true] [0]).mark.getD 0 false
      = markBitAt wbC4 [0, 2] (1 + 0) :=
  ((C4_mark_bit_amended wbC4 (TorchGen.mk 0) [0, 2]
      (ScanState.mk (TorchGen.mk 12345) 1 [false] [true] [0]) 1
      (by decide) (by decide)).2 0 (by decide)).1

/-! ### Claim C5 -/

theorem batchLoop_spec {wb : WatermarkBase} {pref : Bool} :
    ∀ (rows : List (List Nat)) (g : TorchGen) (ids dm : List (List Nat)) (gOut : TorchGen),
      batchLoop wb pref g rows = some (ids, dm, gOut) →
      ids.length = rows.length ∧
      ∀ r, r < rows.length → ∃ p, (rows.getD r []).getLast? = some p ∧
        ids.getD r [] = (if pref then (greenRedOf wb.hash_key wb.vocab_size wb.gamma p).1
                         else (greenRedOf wb.hash_key wb.vocab_size wb.gamma p).2) := by
  intro rows
  induction rows with
  | nil =>
    intro g ids dm gOut h
    unfold batchLoop at h
    simp only [Option.some.injEq, Prod.mk.injEq] at h
    obtain ⟨h1, _, _⟩ := h
    subst h1
    exact ⟨rfl, fun r hr => absurd hr (by simp)⟩
  | cons row rest ih =>
    intro g ids dm gOut h
    unfold batchLoop at h
    cases hg : getGreenlistIds wb g row with
    | none =>
      rw [hg] at h
      exact absurd h (by simp)
    | some val =>
      obtain ⟨⟨gl, rl, gm, rm⟩, gNext⟩ := val
      rw [hg] at h
      dsimp only at h
      cases hb : batchLoop wb pref gNext rest with
      | none =>
        rw [hb] at h
        exact absurd h (by simp)
      | some valRest =>
        obtain ⟨idsRest, dmLast, gFinal⟩ := valRest
        rw [hb] at h
        dsimp only at h
        simp only [Option.some.injEq, Prod.mk.injEq] at h
        obtain ⟨hids, _, _⟩ := h
        obtain ⟨p, hp, hgl, hrl⟩ := getGreenlistIds_green_red hg
        obtain ⟨hlenRest, hspecRest⟩ := ih gNext idsRest dmLast gFinal hb
        subst hids
        constructor
        · simp [hlenRest]
        · intro r hr
          cases r with
          | zero =>
            refine ⟨p, hp, ?_⟩
            rw [hgl, hrl]
            cases pref <;> rfl
          | succ rPrev =>
            have hrPrev : rPrev < rest.length := by
              simp only [List.length_cons] at hr
              omega
            obtain ⟨p2, hp2, hid2⟩ := hspecRest rPrev hrPrev
            exact ⟨p2, hp2, hid2⟩

theorem batchLoop_isSome {wb : WatermarkBase} {pref : Bool}
    (hs : wb.seeding_scheme = "simple_1")
    (hk2 : 2 * greenlistSizeOf wb ≤ wb.vocab_size)
    (hmode : wb.gen_mode ≠ "depth_d") :
    ∀ (rows : List (List Nat)) (g : TorchGen), (∀ row ∈ rows, row ≠ []) →
      (batchLoop wb pref g rows).isSome := by
  intro rows
  induction rows with
  | nil =>
    intro g _
    unfold batchLoop
    simp
  | cons row rest ih =>
    intro g hrows
    have hrow : row ≠ [] := hrows row (by simp)
    obtain ⟨p, hp⟩ := Option.isSome_iff_exists.mp (List.getLast?_isSome.mpr hrow)
    unfold batchLoop
    rw [getGreenlistIds_normal_eq wb g row p hs hp hk2 hmode]
    dsimp only
    have hrest := ih (TorchGen.mk (lcgNext (wb.hash_key * intOfBits wb.userid)))
      (fun r hr => hrows r (by simp [hr]))
    obtain ⟨⟨idsRest, dmLast, gFinal⟩, hb⟩ := Option.isSome_iff_exists.mp hrest
    rw [hb]
    simp

/-- C5 amended: in normal generation mode, the bias step adds exactly the
specified (possibly decayed) delta to `scores[r][id]` for every id in row
`r`'s markable set and leaves every other entry unchanged, and each row's
green/red partition is derived from that row's own last token; however the
preference bit selecting which side is markable is the single bit obtained
from the LAST batch row's recent tokens (`input_ids[-1][-1]`), shared by all
rows, not each row's own bit. -/
theorem C5_bias_injection_amended (wb : WatermarkBase) (g : TorchGen)
    (inputIds : List (List Nat)) (scores : ScoresTensor) (pref : Bool)
    (hmode : wb.gen_mode = "normal")
    (hs : wb.seeding_scheme = "simple_1")
    (hk2 : 2 * greenlistSizeOf wb ≤ wb.vocab_size)
    (hrows : ∀ row ∈ inputIds, row ≠ [])
    (hpref : stepPrefGen wb inputIds = some pref) :
    ∃ out, wmCall wb g inputIds scores = some out ∧
      ∀ r c, out r c =
        if r < inputIds.length ∧
            c ∈ (if pref then
                   (greenRedOf wb.hash_key wb.vocab_size wb.gamma
                     ((inputIds.getD r []).getLast?.getD 0)).1
                 else
                   (greenRedOf wb.hash_key wb.vocab_size wb.gamma
                     ((inputIds.getD r []).getLast?.getD 0)).2)
        then scores r c + (if wb.decrease_delta then decayBias (wb.idx_t + 1) else (wb.delta : ℝ))
        else scores r c := by
  have hmode2 : wb.gen_mode ≠ "depth_d" := by rw [hmode]; decide
  obtain ⟨⟨ids, dm, gOut⟩, hb⟩ := Option.isSome_iff_exists.mp
    (@batchLoop_isSome wb pref hs hk2 hmode2 inputIds g hrows)
  obtain ⟨hlen, hspec⟩ := batchLoop_spec inputIds g ids dm gOut hb
  refine ⟨biasGreenlistLogits scores (calcGreenlistMask ids) (wb.delta : ℝ)
    wb.decrease_delta (wb.idx_t + 1), ?_, ?_⟩
  · unfold wmCall
    simp only [hpref]
    simp only [hb]
    rw [if_neg (by rw [hmode]; decide), if_neg (by rw [hmode]; decide),
        if_neg (by rw [hmode]; decide)]
  · intro r c
    unfold biasGreenlistLogits calcGreenlistMask
    by_cases hr : r < inputIds.length
    · obtain ⟨p, hp, hid⟩ := hspec r hr
      rw [hid, hp]
      simp only [Option.getD_some]
      by_cases hc : c ∈ (if pref then
          (greenRedOf wb.hash_key wb.vocab_size wb.gamma p).1
        else (greenRedOf wb.hash_key wb.vocab_size wb.gamma p).2)
      · rw [if_pos (decide_eq_true hc), if_pos (And.intro hr hc)]
      · rw [if_neg (by simp [hc]), if_neg (by tauto)]
    · have hout : ids.getD r [] = [] := by
        apply List.getD_eq_default
        omega
      rw [hout]
      rw [if_neg (by simp), if_neg (by tauto)]

/-- Concrete run for C5: batch `[[0], [1]]`.  Row 0's own-history preference
bit is 1 (its own markable set is its green list, which contains id 0), yet
`wmCall` leaves `scores[0][0]` unchanged, because the preference bit actually
used is derived from the last row `[1]` and is 0 for every row. -/
theorem C5_bias_injection_counterexample :
    (wmCall wbC5 (TorchGen.mk 0) [[0], [1]] (fun _ _ => 0)).map (fun out => out 0 0)
      = some 0 ∧
    stepPrefGen wbC5 [[0]] = some true ∧
    (0 : Nat) ∈ (greenRedOf wbC5.hash_key wbC5.vocab_size wbC5.gamma 0).1 ∧
    (0 : ℝ) + (wbC5.delta : ℝ) ≠ 0 := by
  have hpref : stepPrefGen wbC5 [[0], [1]] = some false := by decide
  have hb : batchLoop wbC5 false (TorchGen.mk 0) [[0], [1]]
      = some ([[2, 3], [3, 2]], [], TorchGen.mk 59559187) := by decide
  refine ⟨?_, by decide, by decide, by norm_num [wbC5]⟩
  unfold wmCall
  rw [hpref]
  dsimp only
  rw [hb]
  dsimp only
  rw [if_neg (by decide), if_neg (by decide), if_neg (by decide)]
  simp only [Option.map_some', Option.some.injEq]
  unfold biasGreenlistLogits calcGreenlistMask
  norm_num

/-- Witness for C5 amended at the concrete batch `[[0], [1]]` with shared
preference bit 0. -/
theorem C5_bias_injection_amended_witness :
    ∃ out, wmCall wbC5 (TorchGen.mk 0) [[0], [1]] (fun _ _ => 0) = some out ∧
      ∀ r c, out r c =
        if r < ([[0], [1]] : List (List Nat)).length ∧
            c ∈ (if false then
                   (greenRedOf wbC5.hash_key wbC5.vocab_size wbC5.gamma
                     ((([[0], [1]] : List (List Nat)).getD r []).getLast?.getD 0)).1
                 else
                   (greenRedOf wbC5.hash_key wbC5.vocab_size wbC5.gamma
                     ((([[0], [1]] : List (List Nat)).getD r []).getLast?.getD 0)).2)
        then (fun _ _ => (0 : ℝ)) r c +
              (if wbC5.decrease_delta then decayBias (wbC5.idx_t + 1) else (wbC5.delta : ℝ))
        else (fun _ _ => (0 : ℝ)) r c :=
  C5_bias_injection_amended wbC5 (TorchGen.mk 0) [[0], [1]] (fun _ _ => 0) false
    rfl rfl (by decide) (by decide) (by decide)

/-! ### Claim C6 -/

theorem cumExp_eq_triangle : ∀ (i : Nat), cumExp i = i * (i + 1) / 2 := by
  intro i
  induction i with
  | zero => rfl
  | succ j ih =>
    unfold cumExp
    rw [ih]
    have hsplit : (j + 1) * (j + 2) = j * (j + 1) + (j + 1) * 2 := by ring
    have : (j + 1) * ((j + 1) + 1) / 2 = (j * (j + 1) + (j + 1) * 2) / 2 := by
      rw [← hsplit]
    rw [this, Nat.add_mul_div_right _ _ (by omega : 0 < 2)]

theorem biasDepthDAux_frame (nRows : Nat) :
    ∀ (masks : List (List Nat)) (i0 : Nat) (d : ℝ) (scores : ScoresTensor) (r c : Nat),
      (r < nRows → ∀ j, j < masks.length → c ∉ masks.getD j []) →
      biasDepthDAux nRows masks i0 d scores r c = scores r c := by
  intro masks
  induction masks with
  | nil =>
    intro i0 d scores r c _
    rfl
  | cons m rest ih =>
    intro i0 d scores r c hmiss
    rw [show biasDepthDAux nRows (m :: rest) i0 d scores
        = biasDepthDAux nRows rest (i0 + 1) (d * (1 / 2 : ℝ) ^ i0)
            (fun r c => if r < nRows ∧ c ∈ m then scores r c + d * (1 / 2 : ℝ) ^ i0
                        else scores r c) from rfl]
    rw [ih (i0 + 1) _ _ r c (fun hr j hj => hmiss hr (j + 1) (by simpa using hj))]
    by_cases hr : r < nRows
    · rw [if_neg]
      intro hcon
      exact hmiss hr 0 (by simp) hcon.2
    · rw [if_neg (fun hcon => hr hcon.1)]

theorem biasDepthDAux_hit (nRows : Nat) :
    ∀ (masks : List (List Nat)) (i : Nat) (i0 : Nat) (d : ℝ) (scores : ScoresTensor) (r c : Nat),
      i < masks.length → c ∈ masks.getD i [] →
      (∀ j, j < masks.length → j ≠ i → c ∉ masks.getD j []) → r < nRows →
      biasDepthDAux nRows masks i0 d scores r c
        = scores r c + d * (1 / 2 : ℝ) ^ ((i + 1) * i0 + cumExp i) := by
  intro masks
  induction masks with
  | nil =>
    intro i i0 d scores r c hi
    exact absurd hi (by simp)
  | cons m rest ih =>
    intro i i0 d scores r c hi hc hdisj hr
    rw [show biasDepthDAux nRows (m :: rest) i0 d scores
        = biasDepthDAux nRows rest (i0 + 1) (d * (1 / 2 : ℝ) ^ i0)
            (fun r c => if r < nRows ∧ c ∈ m then scores r c + d * (1 / 2 : ℝ) ^ i0
                        else scores r c) from rfl]
    cases i with
    | zero =>
      have hcm : c ∈ m := by simpa using hc
      rw [biasDepthDAux_frame nRows rest (i0 + 1) _ _ r c
        (fun hr2 j hj => hdisj (j + 1) (by simpa using hj) (by omega))]
      rw [if_pos (And.intro hr hcm)]
      unfold cumExp
      ring_nf
    | succ iPrev =>
      have hcPrev : c ∈ rest.getD iPrev [] := by simpa using hc
      have hiPrev : iPrev < rest.length := by
        simp only [List.length_cons] at hi
        omega
      have hdisjPrev : ∀ j, j < rest.length → j ≠ iPrev → c ∉ rest.getD j [] := by
        intro j hj hne
        exact hdisj (j + 1) (by simpa using hj) (by omega)
      rw [ih iPrev (i0 + 1) _ _ r c hiPrev hcPrev hdisjPrev hr]
      have hcnotm : c ∉ m := hdisj 0 (by simp) (by omega)
      rw [if_neg (fun hcon => hcnotm hcon.2)]
      have hcum : cumExp (iPrev + 1) = cumExp iPrev + (iPrev + 1) := rfl
      have hexp : i0 + ((iPrev + 1) * (i0 + 1) + cumExp iPrev)
          = (iPrev + 1 + 1) * i0 + cumExp (iPrev + 1) := by
        rw [hcum]
        ring
      rw [mul_assoc, ← pow_add, hexp]

/-- C6, counterexample to the claim as stated: with three chunks `[0], [1],
[2]` and base delta 1, chunk 2 receives `1/8 = 0.5^(1+2)` because the loop
reassigns the running delta (`delta = delta * 0.5 ** i`), not the claimed
`delta * 0.5^2 = 1/4`. -/
theorem C6_depth_bias_counterexample :
    biasDepthDLogits (fun _ _ => 0) 1 [[0], [1], [2]] 1 0 2 = (1 / 8 : ℝ) ∧
    (1 / 8 : ℝ) ≠ 1 * (1 / 2 : ℝ) ^ 2 := by
  constructor
  · simp only [biasDepthDLogits, biasDepthDAux]
    norm_num
  · norm_num

/-- C6 amended: in depth-weighted mode the injector adds exactly
`delta * 0.5^(i*(i+1)/2)` (the running product of the reassigned delta, the
cumulative exponent `0 + 1 + ... + i`), not `delta * 0.5^i`, to the scores of
chunk `i`'s ids (for rows below the batch bound), and leaves every other
entry unchanged; disjoint chunks make at most one contribution per id. -/
theorem C6_depth_bias_amended :
    (∀ (scores : ScoresTensor) (nRows : Nat) (dMasks : List (List Nat)) (delta : ℝ)
        (i r c : Nat),
      i < dMasks.length → c ∈ dMasks.getD i [] →
      (∀ j, j < dMasks.length → j ≠ i → c ∉ dMasks.getD j []) → r < nRows →
      biasDepthDLogits scores nRows dMasks delta r c
        = scores r c + delta * (1 / 2 : ℝ) ^ (i * (i + 1) / 2)) ∧
    (∀ (scores : ScoresTensor) (nRows : Nat) (dMasks : List (List Nat)) (delta : ℝ)
        (r c : Nat),
      (r < nRows → ∀ j, j < dMasks.length → c ∉ dMasks.getD j []) →
      biasDepthDLogits scores nRows dMasks delta r c = scores r c) := by
  constructor
  · intro scores nRows dMasks delta i r c hi hc hdisj hr
    have := biasDepthDAux_hit nRows dMasks i 0 delta scores r c hi hc hdisj hr
    unfold biasDepthDLogits
    rw [this, cumExp_eq_triangle]
    ring_nf
  · intro scores nRows dMasks delta r c hmiss
    exact biasDepthDAux_frame nRows dMasks 0 delta scores r c hmiss

/-- Witness for C6 amended: chunk 1 of three concrete chunks receives
`1 * 0.5^(1*2/2) = 1/2`. -/
theorem C6_depth_bias_amended_witness :
    biasDepthDLogits (fun _ _ => 0) 1 [[0], [1], [2]] 1 0 1
      = (fun _ _ => (0 : ℝ)) 0 1 + 1 * (1 / 2 : ℝ) ^ (1 * (1 + 1) / 2) :=
  C6_depth_bias_amended.1 (fun _ _ => 0) 1 [[0], [1], [2]] 1 1 0 1
    (by decide) (by decide) (by decide) (by decide)

/-! ### Claim C7 -/

theorem getGreenlistIds_depthd {wb : WatermarkBase} {g : TorchGen} {input : List Nat}
    {gl rl : List Nat} {gm rm : List (List Nat)} {gOut : TorchGen}
    (h : getGreenlistIds wb g input = some ((gl, rl, gm, rm), gOut))
    (hmode : wb.gen_mode = "depth_d") :
    ∃ p d dg dr, input.getLast? = some p ∧ wb.depth = some d ∧ d ≠ 0 ∧
      gl = (greenRedOf wb.hash_key wb.vocab_size wb.gamma p).1 ∧
      rl = (greenRedOf wb.hash_key wb.vocab_size wb.gamma p).2 ∧
      indexSelect gl (randpermModel (wb.hash_key * intOfBits wb.userid) gl.length)
        = some dg ∧
      (if rl.length ≠ gl.length then
          (indexSelect rl.dropLast
            (randpermModel (wb.hash_key * intOfBits wb.userid) gl.length)).bind
            (fun truncated => (rl.getLast?).map fun lastRed => truncated ++ [lastRed])
        else indexSelect rl (randpermModel (wb.hash_key * intOfBits wb.userid) gl.length))
        = some dr ∧
      gm = dChunks dg (greenlistSizeOf wb / d) d ∧
      rm = dChunks dr (greenlistSizeOf wb / d) d := by
  obtain ⟨hs, p, hp⟩ := getGreenlistIds_shape h
  rw [getGreenlistIds_eq_core wb g input p hs hp] at h
  simp only [greenlistCore] at h
  rw [Option.bind_eq_some] at h
  obtain ⟨dg, hdg, h⟩ := h
  rw [Option.bind_eq_some] at h
  obtain ⟨dr, hdr, h⟩ := h
  rw [if_pos hmode, Option.bind_eq_some] at h
  obtain ⟨d, hd, h⟩ := h
  by_cases hd0 : d = 0
  · rw [if_pos hd0] at h
    exact absurd h (by simp)
  · rw [if_neg hd0] at h
    simp only [Option.some.injEq, Prod.mk.injEq] at h
    obtain ⟨⟨hgl, hrl, hgm, hrm⟩, _⟩ := h
    subst hgl
    subst hrl
    exact ⟨p, d, dg, dr, hp, hd, hd0, rfl, rfl, hdg, hdr, hgm.symm, hrm.symm⟩

/-- C7, counterexample to the claim as stated: with `V = 10`, `gamma = 1/5`
the red list has 8 ids while the green list has 2; the code drops only the
single trailing red id before applying the 2-element green permutation, so
the red depth chunks `[[9], [8, 2]]` lose five red ids - here id 5 is red but
appears in no red chunk. -/
theorem C7_depth_chunks_counterexample :
    (getGreenlistIds wbC7 (TorchGen.mk 0) [0]).map
        (fun r => (decide ((5 : Nat) ∈ r.1.2.1), decide ((5 : Nat) ∈ r.1.2.2.2.flatten)))
      = some (true, false) ∧
    (getGreenlistIds wbC7 (TorchGen.mk 0) [0]).map
        (fun r => (r.1.1.length, r.1.2.1.length)) = some (2, 8) := by
  constructor
  · decide
  · decide

/-- C7 amended: in depth mode the green depth chunks always reconstruct the
green list exactly once (their concatenation is a permutation of it); the red
depth chunks reconstruct the red list exactly once when `|red| = |green|` or
`|red| = |green| + 1` (the only shapes the tail-append construction handles;
the code drops one trailing red id, it does not truncate to green length, so
longer red lists lose ids and shorter ones make the index select fail). -/
theorem C7_depth_chunks_amended (wb : WatermarkBase) (g : TorchGen) (input : List Nat)
    (gl rl : List Nat) (gm rm : List (List Nat)) (gOut : TorchGen) (d : Nat)
    (hmode : wb.gen_mode = "depth_d") (hd1 : 1 ≤ d) (hd : wb.depth = some d)
    (h : getGreenlistIds wb g input = some ((gl, rl, gm, rm), gOut)) :
    gm.flatten.Perm gl ∧
    ((rl.length = gl.length ∨ rl.length = gl.length + 1) → rm.flatten.Perm rl) := by
  obtain ⟨p, d2, dg, dr, _hp, hd2, hd20, _hgl, _hrl, hdg, hdr, hgm, hrm⟩ :=
    getGreenlistIds_depthd h hmode
  have hdd : d2 = d := by
    rw [hd] at hd2
    exact (Option.some.inj hd2).symm
  subst hdd
  have hdgperm : dg.Perm gl :=
    indexSelect_perm (randpermModel_perm _ _) hdg
  constructor
  · rw [hgm, dChunks_flatten d2 hd1]
    exact hdgperm
  · intro hlen
    cases hlen with
    | inl hEq =>
      rw [if_neg (not_ne_iff.mpr hEq)] at hdr
      have hdrperm : dr.Perm rl := by
        apply indexSelect_perm _ hdr
        rw [hEq]
        exact randpermModel_perm _ _
      rw [hrm, dChunks_flatten d2 hd1]
      exact hdrperm
    | inr hSucc =>
      rw [if_pos (by omega)] at hdr
      rw [Option.bind_eq_some] at hdr
      obtain ⟨truncated, htr, hdr⟩ := hdr
      rw [Option.map_eq_some'] at hdr
      obtain ⟨lastRed, hlast, hdrEq⟩ := hdr
      have htrperm : truncated.Perm rl.dropLast := by
        apply indexSelect_perm _ htr
        rw [List.length_dropLast, hSucc]
        simpa using randpermModel_perm _ _
      have hback : rl.dropLast ++ [lastRed] = rl :=
        List.dropLast_append_getLast? lastRed hlast
      rw [hrm, dChunks_flatten d2 hd1, ← hdrEq]
      have hstep : (truncated ++ [lastRed]).Perm (rl.dropLast ++ [lastRed]) :=
        htrperm.append_right _
      rw [hback] at hstep
      exact hstep

/-- Witness for C7 amended: at the concrete `depth_d` configuration the green
depth chunks `[[7], [0]]` are a permutation of the green list `[0, 7]`. -/
theorem C7_depth_chunks_amended_witness :
    (([[7], [0]] : List (List Nat)).flatten).Perm [0, 7] :=
  (C7_depth_chunks_amended wbC7 (TorchGen.mk 0) [0] [0, 7] [8, 9, 5, 4, 3, 6, 1, 2]
    [[7], [0]] [[9], [8, 2]] (TorchGen.mk 1103527590) 2
    (by decide) (by decide) (by decide) (by decide)).1

/-! ### Claim C8 -/

theorem getD_take_of_lt (l : List Nat) (n i : Nat) (hin : i < n) (hil : i < l.length) :
    (l.take n).getD i 0 = l.getD i 0 := by
  have hlen : i < (l.take n).length := by
    rw [List.length_take]
    omega
  rw [List.getD_eq_getElem _ _ hlen, List.getD_eq_getElem _ _ hil]
  exact List.getElem_take l

theorem getLast?_take_of (tokens : List Nat) (t : Nat) (h1 : 1 ≤ t) (h2 : t ≤ tokens.length) :
    (tokens.take t).getLast? = some (tokens.getD (t - 1) 0) := by
  rw [List.getLast?_eq_getElem? _]
  have hlen : (tokens.take t).length = t := by
    rw [List.length_take]
    omega
  rw [hlen]
  have hb : t - 1 < (tokens.take t).length := by omega
  rw [List.getElem?_eq_getElem hb]
  congr 1
  have hbl : t - 1 < tokens.length := by omega
  rw [List.getD_eq_getElem _ _ hbl]
  exact List.getElem_take tokens

/-- C8: the preference bit computed at generation for the step producing the
token at position `t` (from the batch whose last row is the history
`tokens[0..t)`) equals the preference bit computed at detection when scoring
position `t`: both equal `userid[tokens[t-1] mod n]` in previous1 mode and
`userid[(tokens[t-1] * tokens[t-2]) mod n]` in combination mode, evaluated
over the identical tokens strictly preceding `t`. -/
theorem C8_preference_symmetry (wb : WatermarkBase) (tokens : List Nat) (t : Nat)
    (hu : wb.userid ≠ [])
    (hmode : (wb.wm_mode = "previous1" ∧ 1 ≤ t ∧ t ≤ tokens.length) ∨
             (wb.wm_mode = "combination" ∧ 2 ≤ t ∧ t ≤ tokens.length)) :
    stepPrefGen wb [tokens.take t] = some (detPrefAt wb tokens t) ∧
    detPrefAt wb tokens t =
      (if wb.wm_mode = "previous1" then
        wb.userid.getD (tokens.getD (t - 1) 0 % wb.userid.length) false
      else
        wb.userid.getD
          ((tokens.getD (t - 1) 0 * tokens.getD (t - 2) 0) % wb.userid.length) false) := by
  have hue : ¬ wb.userid.isEmpty = true := by
    simpa [List.isEmpty_iff] using hu
  refine ⟨?_, rfl⟩
  unfold stepPrefGen
  rw [if_neg hue]
  have hlastrow : ([tokens.take t] : List (List Nat)).getLast? = some (tokens.take t) := rfl
  rw [hlastrow]
  dsimp only
  cases hmode with
  | inl hprev =>
    obtain ⟨hm, h1, h2⟩ := hprev
    rw [if_pos hm]
    rw [getLast?_take_of tokens t h1 h2]
    dsimp only
    unfold detPrefAt
    rw [if_pos hm]
  | inr hcomb =>
    obtain ⟨hm, h2, hlen⟩ := hcomb
    have hm2 : wb.wm_mode ≠ "previous1" := by
      rw [hm]
      decide
    rw [if_neg hm2]
    have htlen : (tokens.take t).length = t := by
      rw [List.length_take]
      omega
    rw [if_pos (by omega : 2 ≤ (tokens.take t).length)]
    unfold detPrefAt
    rw [if_neg hm2, htlen]
    rw [getD_take_of_lt tokens t (t - 1) (by omega) (by omega),
        getD_take_of_lt tokens t (t - 2) (by omega) (by omega)]

/-- Concrete configuration for the C8 witness (combination mode). -/
theorem C8_preference_symmetry_witness :
    stepPrefGen wbC1b [([7, 3, 5] : List Nat).take 3] = some (detPrefAt wbC1b [7, 3, 5] 3) :=
  (C8_preference_symmetry wbC1b [7, 3, 5] 3 (by decide)
    (Or.inr (by exact ⟨rfl, by decide, by decide⟩))).1

/-! ### Claim C9 -/

theorem greenlistCore_depth_irrel (wb : WatermarkBase) (p : Nat) (dNew : Option Nat)
    (hmode : wb.gen_mode ≠ "depth_d") :
    greenlistCore { wb with depth := dNew } p = greenlistCore wb p := by
  have hsize : greenlistSizeOf { wb with depth := dNew } = greenlistSizeOf wb := rfl
  simp only [greenlistCore, hsize]
  simp only [if_neg hmode]

theorem getGreenlistIds_depth_irrel (wb : WatermarkBase) (g : TorchGen) (input : List Nat)
    (dNew : Option Nat) (hmode : wb.gen_mode ≠ "depth_d") :
    getGreenlistIds { wb with depth := dNew } g input = getGreenlistIds wb g input := by
  by_cases hs : wb.seeding_scheme = "simple_1"
  · cases hp : input.getLast? with
    | none =>
      unfold getGreenlistIds seedRng
      simp only [if_pos hs, hp, Option.none_bind]
    | some p =>
      rw [getGreenlistIds_eq_core { wb with depth := dNew } g input p hs hp,
          getGreenlistIds_eq_core wb g input p hs hp]
      exact greenlistCore_depth_irrel wb p dNew hmode
  · unfold getGreenlistIds seedRng
    simp only [if_neg hs, Option.none_bind]

theorem batchLoop_depth_irrel (wb : WatermarkBase) (pref : Bool) (dNew : Option Nat)
    (hmode : wb.gen_mode ≠ "depth_d") :
    ∀ (rows : List (List Nat)) (g : TorchGen),
      batchLoop { wb with depth := dNew } pref g rows = batchLoop wb pref g rows := by
  intro rows
  induction rows with
  | nil => intro g; rfl
  | cons row rest ih =>
    intro g
    unfold batchLoop
    rw [getGreenlistIds_depth_irrel wb g row dNew hmode]
    cases getGreenlistIds wb g row with
    | none => rfl
    | some val =>
      obtain ⟨⟨gl, rl, gm, rm⟩, gNext⟩ := val
      dsimp only
      rw [ih gNext]

/-- C9 amended: the `depth` option is consulted by the detector's standard
scoring path in EVERY generation mode - `torch.zeros(self.args.depth)` is
built before the scan regardless of `gen_mode`, so detection fails whenever
`depth` is absent; during generation, by contrast, `depth` is consulted only
when `gen_mode = depth_d`: normal-mode generation succeeds without it, and
the step function is invariant under changing it in every non-`depth_d`
mode. -/
theorem C9_depth_requirement_amended :
    (∀ (wb : WatermarkBase) (g : TorchGen) (tokens : List Nat),
      wb.depth = none → scoreSequence wb g tokens = none) ∧
    (∀ (wb : WatermarkBase) (g : TorchGen) (inputIds : List (List Nat)) (scores : ScoresTensor)
        (pref : Bool),
      wb.gen_mode = "normal" → wb.seeding_scheme = "simple_1" →
      2 * greenlistSizeOf wb ≤ wb.vocab_size →
      (∀ row ∈ inputIds, row ≠ []) → stepPrefGen wb inputIds = some pref →
      (wmCall wb g inputIds scores).isSome) ∧
    (∀ (wb : WatermarkBase) (g : TorchGen) (inputIds : List (List Nat)) (scores : ScoresTensor)
        (dNew : Option Nat), wb.gen_mode ≠ "depth_d" →
      wmCall { wb with depth := dNew } g inputIds scores = wmCall wb g inputIds scores) := by
  refine ⟨?_, ?_, ?_⟩
  · intro wb g tokens hdep
    unfold scoreSequence
    cases hm : minPrefixLen wb with
    | none => rfl
    | some mpl =>
      dsimp only
      by_cases hT : tokens.length - mpl < 1
      · rw [if_pos hT]
      · rw [if_neg hT, hdep]
  · intro wb g inputIds scores pref hmode hs hk2 hrows hpref
    have hmode2 : wb.gen_mode ≠ "depth_d" := by rw [hmode]; decide
    obtain ⟨⟨ids, dm, gOut⟩, hb⟩ := Option.isSome_iff_exists.mp
      (@batchLoop_isSome wb pref hs hk2 hmode2 inputIds g hrows)
    unfold wmCall
    simp only [hpref]
    simp only [hb]
    rw [if_neg (by rw [hmode]; decide), if_neg (by rw [hmode]; decide),
        if_neg (by rw [hmode]; decide)]
    rfl
  · intro wb g inputIds scores dNew hmode
    unfold wmCall
    have hsp : stepPrefGen { wb with depth := dNew } inputIds = stepPrefGen wb inputIds := rfl
    rw [hsp]
    cases stepPrefGen wb inputIds with
    | none => rfl
    | some pref =>
      dsimp only
      rw [batchLoop_depth_irrel wb pref dNew hmode]

/-- C9, counterexample to the claim as stated: `wbC1a` and `wbC2` differ only
in the `depth` field (absent versus 1); in `gen_mode = "normal"` the
detector's standard scoring path fails on the configuration without `depth`
and succeeds on the one with it. -/
theorem C9_depth_requirement_counterexample :
    scoreSequence wbC1a (TorchGen.mk 0) [0, 1] = none ∧
    (scoreSequence wbC2 (TorchGen.mk 0) [0, 1]).isSome = true ∧
    wbC1a.gen_mode = "normal" ∧ wbC1a.depth = none ∧
    wbC2 = { wbC1a with depth := some 1 } := by
  refine ⟨by decide, by decide, rfl, rfl, by decide⟩

/-- Witness for C9 amended: detection on a depth-less configuration fails. -/
theorem C9_depth_requirement_amended_witness :
    scoreSequence wbC5 (TorchGen.mk 3) [1, 2, 3] = none :=
  C9_depth_requirement_amended.1 wbC5 (TorchGen.mk 3) [1, 2, 3] rfl

/-! ### Claim C10 -/

/-- C10 amended: `detect` fails input validation exactly when both raw text
and pre-tokenized ids are supplied or neither is; with raw text alone it
proceeds to scoring provided the (normalized) text tokenizes to a nonempty
sequence; with pre-tokenized ids alone it proceeds to scoring ONLY when the
configured normalizer list is empty (each normalizer is applied to the
absent text before the ids branch is reached, so the default configuration,
whose normalizer list is `["unicode"]`, fails) and the ids are nonempty. -/
theorem C10_detect_input_amended (tok : String → List Nat) (bos : Nat)
    (norms : List (String → String)) :
    (∀ (t : String) (l : List Nat),
      detectPrepare tok bos norms (some t) (some l) = none) ∧
    detectPrepare tok bos norms none none = none ∧
    (∀ t : String,
      (detectPrepare tok bos norms (some t) none).isSome
        ↔ tok (norms.foldl (fun s f => f s) t) ≠ []) ∧
    (∀ l : List Nat,
      (detectPrepare tok bos norms none (some l)).isSome ↔ (norms = [] ∧ l ≠ [])) ∧
    (∀ (wb : WatermarkBase) (g : TorchGen) (text : Option String) (ids : Option (List Nat)),
      detect wb g tok bos norms text ids
        = (detectPrepare tok bos norms text ids).bind (fun s => scoreSequence wb g s)) := by
  refine ⟨fun t l => rfl, rfl, ?_, ?_, fun wb g text ids => rfl⟩
  · intro t
    unfold detectPrepare
    cases htok : tok (norms.foldl (fun s f => f s) t) with
    | nil => simp [htok]
    | cons t0 rest => simp [htok]
  · intro l
    cases norms with
    | nil =>
      cases l with
      | nil => simp [detectPrepare]
      | cons t0 rest => simp [detectPrepare]
    | cons f fs =>
      cases l with
      | nil => simp [detectPrepare]
      | cons t0 rest => simp [detectPrepare]

/-- C10, counterexample to the claim as stated: supplying pre-tokenized ids
alone (exactly one input) under a configuration with one text normalizer -
the default is `["unicode"]` - makes `detect` fail before scoring, because
the normalizer loop runs on the absent raw text; with an empty normalizer
list the same call proceeds. -/
theorem C10_detect_input_counterexample :
    detectPrepare (fun _ => [1]) 0 [fun s => s] none (some [5, 6]) = none ∧
    detectPrepare (fun _ => [1]) 0 [] none (some [5, 6]) = some [5, 6] ∧
    detect wbC2 (TorchGen.mk 0) (fun _ => [1]) 0 [fun s => s] none (some [5, 6]) = none :=
  ⟨rfl, rfl, rfl⟩

/-- Witness for C10 amended: ids alone with an empty normalizer list pass
input handling. -/
theorem C10_detect_input_amended_witness :
    (detectPrepare (fun _ => [1]) 0 [] none (some [5, 6])).isSome :=
  ((C10_detect_input_amended (fun _ => [1]) 0 []).2.2.2.1 [5, 6]).mpr ⟨rfl, by decide⟩
